import Mathlib

set_option linter.unusedVariables false
set_option linter.unusedSectionVars false

/-!
Shallow embedding of the point-in-time panel reconstruction engine of
src/jaqs/data/dataservice.py (class RemoteDataService): the operations
get_index_comp_df, get_index_weights_daily, get_industry_daily and
get_adj_factor_daily, together with the pandas list/frame operations they use
(forward fill, backward fill, shift, reindex, elementwise division).

External collaborators (the trading calendar and the raw fetch layer) are taken
as parameters, as the spec prescribes. Dates are integers (YYYYMMDD style),
entity ids are strings, numeric cells are rationals extended with the NaN and
infinity specials that the source operations can produce.
-/

namespace JaqsData

/-- Cell value of a numeric pandas frame: a floating value modelled as a
rational, extended with the specials the source operations produce: NaN for
missing data or 0/0, and signed infinities from dividing a nonzero value by
zero. -/
inductive PVal where
  | nan : PVal
  | pinf : PVal
  | ninf : PVal
  | val : ℚ → PVal
deriving DecidableEq, Repr

/-- Division of two cells following numpy true division: anything involving
NaN is NaN, a nonzero value divided by zero gives a signed infinity, 0/0 gives
NaN, and finite nonzero denominators divide exactly. -/
def pdiv : PVal → PVal → PVal
  | .nan, _ => .nan
  | _, .nan => .nan
  | .val a, .val b =>
      if b = 0 then (if a = 0 then .nan else if 0 < a then .pinf else .ninf)
      else .val (a / b)
  | .val _, .pinf => .val 0
  | .val _, .ninf => .val 0
  | .pinf, .val b => if 0 ≤ b then .pinf else .ninf
  | .ninf, .val b => if 0 ≤ b then .ninf else .pinf
  | .pinf, _ => .nan
  | .ninf, _ => .nan

section FillOps

variable {α : Type} [DecidableEq α]

/-- One step of carrying the last seen non-missing value. -/
def naStep (na : α) (acc x : α) : α := if x = na then acc else x

/-- Last non-missing element of a list, or the missing marker if there is
none. -/
def lastNonNA (na : α) (xs : List α) : α := xs.foldl (naStep na) na

/-- First non-missing element of a list, or the missing marker if there is
none. -/
def firstNonNA (na : α) (xs : List α) : α :=
  xs.foldr (fun x acc => if x = na then acc else x) na

/-- Forward fill with an explicit carried value (pandas fillna, method
ffill). -/
def ffillGo (na : α) : α → List α → List α
  | _, [] => []
  | carry, x :: xs =>
      let y := if x = na then carry else x
      y :: ffillGo na y xs

/-- Forward fill of one column. -/
def ffillList (na : α) (xs : List α) : List α := ffillGo na na xs

/-- Backward fill of one column (pandas fillna, method bfill). -/
def bfillList (na : α) : List α → List α
  | [] => []
  | x :: xs =>
      let rest := bfillList na xs
      (if x = na then rest.headD na else x) :: rest

/-- Shift a column down by one position (pandas shift with period 1): the
first cell becomes missing, the last is dropped. -/
def shiftList (na : α) : List α → List α
  | [] => []
  | x :: xs => na :: (x :: xs).dropLast

/-- Replace every missing cell by a constant (pandas fillna with a value). -/
def fillConst (na c : α) (xs : List α) : List α :=
  xs.map (fun x => if x = na then c else x)

end FillOps

/-- Dense panel: a date-indexed, entity-columned matrix, stored column major
(data has one inner list per column, each parallel to rows). -/
structure Frame (α : Type) where
  rows : List Int
  cols : List String
  data : List (List α)
deriving DecidableEq

/-- Column of a frame under a column label (first occurrence). -/
def Frame.colAt {α : Type} (f : Frame α) (s : String) : List α :=
  f.data.getD (f.cols.indexOf s) []

/-- Cell of a frame under a row and column label, none when out of range. -/
def Frame.cellO {α : Type} (f : Frame α) (d : Int) (s : String) : Option α :=
  (f.colAt s).get? (f.rows.indexOf d)

/-- Apply a columnwise operation to every column. -/
def Frame.mapCols {α : Type} (g : List α → List α) (f : Frame α) : Frame α :=
  ⟨f.rows, f.cols, f.data.map g⟩

/-- Reindex a frame onto a new row axis (pandas reindex): cells at new labels
absent from the old axis become missing. -/
def reindexF {α : Type} (na : α) (newRows : List Int) (f : Frame α) : Frame α :=
  ⟨newRows, f.cols,
   f.data.map (fun col => newRows.map (fun d => col.getD (f.rows.indexOf d) na))⟩

/-- Restrict a frame to the rows whose label lies in a closed interval
(pandas loc slice on a sorted axis). -/
def truncF {α : Type} (lo hi : Int) (f : Frame α) : Frame α :=
  ⟨f.rows.filter (fun d => decide (lo ≤ d ∧ d ≤ hi)),
   f.cols,
   f.data.map (fun col =>
     ((f.rows.zip col).filter (fun p => decide (lo ≤ p.1 ∧ p.1 ≤ hi))).map Prod.snd)⟩

/-- Elementwise division of two frames of identical shape (pandas div). -/
def divF (f g : Frame PVal) : Frame PVal :=
  ⟨f.rows, f.cols, List.zipWith (List.zipWith pdiv) f.data g.data⟩

/-- Lexicographic order on character code points, the order Python and numpy
sort strings by. -/
def leChars : List Char → List Char → Bool
  | [], _ => true
  | _ :: _, [] => false
  | a :: as, b :: bs =>
      if a.toNat < b.toNat then true
      else if b.toNat < a.toNat then false
      else leChars as bs

/-- Lexicographic string order as an executable comparison. -/
def strLe (a b : String) : Bool := leChars a.toList b.toList

/-- Sort a list of strings ascending (numpy sort; no deduplication). -/
def sortS (l : List String) : List String :=
  List.insertionSort (fun a b => strLe a b = true) l

/-- Deduplicated, lexicographically sorted entity ids (sorted set / numpy
unique). -/
def uniqSortS (l : List String) : List String :=
  (List.insertionSort (fun a b => strLe a b = true) l).dedup

/-- Deduplicated sorted integers (numpy unique). -/
def uniqSortI (l : List Int) : List Int := (List.insertionSort (· ≤ ·) l).dedup

/-- Minimum of a list of dates, 0 on an empty list. -/
def minList (l : List Int) : Int :=
  match l with
  | [] => 0
  | x :: xs => xs.foldl min x

/-- Maximum of a list of dates, 0 on an empty list. -/
def maxList (l : List Int) : Int :=
  match l with
  | [] => 0
  | x :: xs => xs.foldl max x

/-- Digits-only string body of a Python int literal. -/
def digitsToNat? : List Char → Option Nat
  | [] => none
  | cs =>
      if cs.all Char.isDigit then
        some (cs.foldl (fun n c => 10 * n + (c.toNat - 48)) 0)
      else none

/-- Python int(s) on a string: optional sign followed by digits. -/
def pyInt? (s : String) : Option Int :=
  match s.toList with
  | [] => none
  | c :: cs =>
      if c = '-' then (digitsToNat? cs).map (fun n => -(n : Int))
      else if c = '+' then (digitsToNat? cs).map (fun n => (n : Int))
      else (digitsToNat? (c :: cs)).map (fun n => (n : Int))

/-- Raw value of an in_date or out_date field of a fetched lb.indexCons row:
a text value, a numeric value, or a value of any other type. -/
inductive Field where
  | fstr : String → Field
  | fnum : ℚ → Field
  | fother : Field
deriving DecidableEq

/-- Shallow embedding of the function str2int inside get_index_comp_df
(dataservice.py lines 573 to 579): a blank string maps to the sentinel
99999999, a non-blank string is parsed as a Python int, a numeric value passes
through unchanged, and a value of any other type raises
NotImplementedError. -/
def str2int : Field → Except String ℚ
  | .fstr s =>
      if s = "" then .ok (99999999 : ℚ)
      else
        match pyInt? s with
        | some n => .ok (n : ℚ)
        | none => .error "ValueError"
  | .fnum q => .ok q
  | .fother => .error "NotImplementedError"

/-- Fetched lb.indexCons row before date coercion. -/
structure ConsRow where
  symbol : String
  in_date : Field
  out_date : Field
deriving DecidableEq

/-- An lb.indexCons row after both date fields are coerced. -/
structure CRow where
  symbol : String
  in_d : ℚ
  out_d : ℚ
deriving DecidableEq

/-- Coerce the two date fields of one row, propagating the raised error. -/
def coerceCons (r : ConsRow) : Except String CRow := do
  let i ← str2int r.in_date
  let o ← str2int r.out_date
  pure ⟨r.symbol, i, o⟩

/-- Membership cell of get_index_comp_df: the mask starts at zero and each
record of the symbol sets the strictly interior dates to one (dataservice.py
lines 588 to 593). -/
def memberCell (crows : List CRow) (s : String) (d : Int) : ℚ :=
  if crows.any (fun r =>
      r.symbol == s && decide (r.in_d < (d : ℚ)) && decide ((d : ℚ) < r.out_d))
  then 1 else 0

/-- Membership panel of get_index_comp_df built from the coerced rows: one
column per distinct fetched symbol (pandas builds the frame from a dict, so
columns are the sorted distinct keys of the groupby). -/
def compPanel (dates : List Int) (crows : List CRow) : Frame ℚ :=
  ⟨dates, uniqSortS (crows.map (fun r => r.symbol)),
   (uniqSortS (crows.map (fun r => r.symbol))).map
     (fun s => dates.map (fun d => memberCell crows s d))⟩

/-- Shallow embedding of RemoteDataService.get_index_comp_df (dataservice.py
lines 551 to 597). The fetched pair carries the rows and the status message of
the fetch; the source only prints a non-success message and uses the rows
regardless, so the message does not influence the result. -/
def get_index_comp_df (cal : Int → Int → List Int) (start en : Int)
    (fetched : List ConsRow × String) : Except String (Frame ℚ) := do
  let crows ← fetched.1.mapM coerceCons
  pure (compPanel (cal start en) crows)

/-- Shallow embedding of RemoteDataService.get_index_weights_daily
(dataservice.py lines 468 to 504). The snapshot dates td generated by the
while loop are passed as the list tds, because the monthly stepping function
get_next_period_day lives in jaqs.util which is not under src/; fetch td gives
the snapshot rows of get_index_weights at td and msgs td its status message,
which the source only prints. The universe is the union of symbols over all
snapshots, a symbol absent from a snapshot gets weight 0.0 there (fillna on the
merged snapshot frame), snapshot values are placed on the trading axis, forward
filled, and the frame is restricted to the span of the trading axis. -/
def get_index_weights_daily (cal : Int → Int → List Int) (start en : Int)
    (tds : List Int) (fetch : Int → List (String × ℚ)) (msgs : Int → String) :
    Frame PVal :=
  let trade_dates := cal start en
  let start1 := trade_dates.headD start
  let en1 := trade_dates.getLastD en
  let syms := uniqSortS (tds.flatMap (fun td => (fetch td).map Prod.fst))
  let placed := fun s => trade_dates.map (fun d =>
      if d ∈ tds then PVal.val (((fetch d).lookup s).getD 0) else PVal.nan)
  let fr : Frame PVal := ⟨trade_dates, syms, syms.map (fun s => ffillList PVal.nan (placed s))⟩
  truncF start1 en1 fr

/-- Fetched lb.secIndustry row after get_industry_raw coerces in_date to int:
symbol, announcement (in) date, and the industry code of the queried level. -/
structure IndRow where
  symbol : String
  in_date : Int
  code : String
deriving DecidableEq

/-- Modelled from the spec: jaqs.data.align, whose function align.align is
called at dataservice.py line 637, is not under src/. Per the spec,
announcement-gated forward fill gives each axis date the value of the last
event whose announcement date is at or before that date (events in ascending
announcement order, last writer wins), and no value before its announcement. -/
def alignCell (events : List (Int × String)) (d : Int) : Option String :=
  events.foldl (fun acc e => if e.1 ≤ d then some e.2 else acc) none

/-- Events of one symbol, sorted ascending by announcement date, as pairs of
announcement date and industry code. -/
def evsOf (rows : List IndRow) (s : String) : List (Int × String) :=
  (List.insertionSort (fun a b => a.in_date ≤ b.in_date)
    (rows.filter (fun r => r.symbol == s))).map (fun r => (r.in_date, r.code))

/-- Cast of one cell by pandas astype(str): a missing cell becomes the literal
text nan, any other cell keeps its text code. -/
def castCell (o : Option String) : String := o.getD "nan"

/-- Shallow embedding of RemoteDataService.get_industry_daily (dataservice.py
lines 599 to 643): records are deduplicated (get_industry_raw), grouped and
sorted per symbol, gated-aligned onto the trading axis, back filled once, and
every cell cast to text. The columns are the sorted requested symbols, and the
status message of the fetch is only printed by the source, so it is unused. -/
def get_industry_daily (cal : Int → Int → List Int) (start en : Int)
    (symbols : List String) (fetched : List IndRow × String) : Frame String :=
  let draw := fetched.1.dedup
  let dates := cal start en
  let cols := sortS symbols
  let gated := fun s => dates.map (fun d => alignCell (evsOf draw s) d)
  ⟨dates, cols,
   cols.map (fun s => (bfillList (none : Option String) (gated s)).map castCell)⟩

/-- Fetched lb.secAdjFactor row after get_adj_factor_raw coerces types. -/
structure AdjRow where
  symbol : String
  trade_date : Int
  adjust_factor : ℚ
deriving DecidableEq

/-- Shallow embedding of RemoteDataService.get_adj_factor_raw (dataservice.py
lines 736 to 769): fetch rows for the filter built from symbol and the
requested window, print a non-success status, coerce types and drop duplicate
rows. The fetcher is a parameter returning the rows and the status message. -/
def get_adj_factor_raw (fetchAdj : Int → Int → List AdjRow × String)
    (start en : Int) : List AdjRow :=
  (fetchAdj start en).1.dedup

/-- Value placed for symbol s at date d by the per-symbol series construction
of get_adj_factor_daily: the factor of the last raw row with that symbol and
date, missing when there is none. -/
def placedAdj (raw : List AdjRow) (s : String) (d : Int) : PVal :=
  raw.foldl (fun acc r =>
    if r.symbol == s && r.trade_date == d then PVal.val r.adjust_factor else acc) PVal.nan

/-- Shallow embedding of RemoteDataService.get_adj_factor_daily
(dataservice.py lines 687 to 734): place per-symbol factors on the union of
observed dates with the sorted requested symbols as columns; if the trading
axis spanning the observed min and max date has a different length, reindex
onto it and forward fill then backward fill; optionally divide by the shifted
frame and fill NaN with 1.0. The requested window start, en only reaches the
fetcher; the commented-out loc slice of line 732 never truncates the result. -/
def get_adj_factor_daily (cal : Int → Int → List Int) (symbols : List String)
    (start en : Int) (fetchAdj : Int → Int → List AdjRow × String) (div : Bool) :
    Frame PVal :=
  let raw := get_adj_factor_raw fetchAdj start en
  let idx := uniqSortI (raw.map (fun r => r.trade_date))
  let cols := sortS symbols
  let base : Frame PVal := ⟨idx, cols, cols.map (fun s => idx.map (placedAdj raw s))⟩
  let lo := minList (raw.map (fun r => r.trade_date))
  let hi := maxList (raw.map (fun r => r.trade_date))
  let dates_arr := cal lo hi
  let base2 :=
    if dates_arr.length = idx.length then base
    else Frame.mapCols (fun col => bfillList PVal.nan (ffillList PVal.nan col))
           (reindexF PVal.nan dates_arr base)
  if div then
    Frame.mapCols (fillConst PVal.nan (PVal.val 1))
      (divF base2 (Frame.mapCols (shiftList PVal.nan) base2))
  else base2

instance {ε α : Type} [DecidableEq ε] [DecidableEq α] : DecidableEq (Except ε α) :=
  fun a b =>
    match a, b with
    | .ok x, .ok y =>
        if h : x = y then .isTrue (by rw [h]) else .isFalse (by intro hc; cases hc; exact h rfl)
    | .error x, .error y =>
        if h : x = y then .isTrue (by rw [h]) else .isFalse (by intro hc; cases hc; exact h rfl)
    | .ok _, .error _ => .isFalse (by intro hc; cases hc)
    | .error _, .ok _ => .isFalse (by intro hc; cases hc)

/-- Concrete consecutive-integer calendar used by witnesses. -/
def intRange (a b : Int) : List Int :=
  (List.range (b - a + 1).toNat).map (fun k => a + (k : Int))

/-- Concrete calendar whose trading dates are all integers in range. -/
def calUnit : Int → Int → List Int := intRange

section FillLemmas

variable {α : Type} [DecidableEq α]

theorem ffillGo_length (na c : α) (xs : List α) : (ffillGo na c xs).length = xs.length := by
  induction xs generalizing c with
  | nil => rfl
  | cons x xs ih => simp [ffillGo, ih]

theorem ffillGo_get? (na : α) (xs : List α) (c : α) (i : Nat) (hi : i < xs.length) :
    (ffillGo na c xs).get? i = some (List.foldl (naStep na) c (xs.take (i + 1))) := by
  induction xs generalizing c i with
  | nil => simp at hi
  | cons x xs ih =>
    cases i with
    | zero => simp [ffillGo, naStep]
    | succ i =>
      have hi2 : i < xs.length := by simpa using hi
      simpa [ffillGo, naStep] using ih (naStep na c x) i hi2

theorem ffillList_get? (na : α) (xs : List α) (i : Nat) (hi : i < xs.length) :
    (ffillList na xs).get? i = some (lastNonNA na (xs.take (i + 1))) :=
  ffillGo_get? na xs na i hi

theorem foldl_naStep_all (na c : α) (xs : List α) (h : ∀ y ∈ xs, y = na) :
    List.foldl (naStep na) c xs = c := by
  induction xs generalizing c with
  | nil => rfl
  | cons x xs ih =>
    have hx : x = na := h x (by simp)
    simp only [List.foldl, naStep, hx, if_pos rfl]
    exact ih c (fun y hy => h y (by simp [hy]))

theorem foldl_naStep_last (na c : α) (xs : List α) (j : Nat) (hj : j < xs.length)
    (hx : xs.getD j na ≠ na)
    (hafter : ∀ k, j < k → k < xs.length → xs.getD k na = na) :
    List.foldl (naStep na) c xs = xs.getD j na := by
  induction xs generalizing c j with
  | nil => simp at hj
  | cons x xs ih =>
    cases j with
    | zero =>
      simp only [List.getD_cons_zero] at hx ⊢
      simp only [List.foldl, naStep, if_neg hx]
      apply foldl_naStep_all
      intro y hy
      obtain ⟨k, hk, hky⟩ := List.mem_iff_getElem.mp hy
      have := hafter (k + 1) (Nat.succ_pos k) (by simpa using Nat.succ_lt_succ hk)
      rw [List.getD_cons_succ] at this
      rw [← hky, ← List.getD_eq_getElem xs na hk, this]
    | succ j =>
      simp only [List.getD_cons_succ] at hx ⊢
      simp only [List.foldl]
      refine ih (naStep na c x) j (by simpa using hj) hx (fun k hk hk2 => ?_)
      have := hafter (k + 1) (Nat.succ_lt_succ hk) (by simpa using Nat.succ_lt_succ hk2)
      rwa [List.getD_cons_succ] at this

theorem lastNonNA_last (na : α) (xs : List α) (j : Nat) (hj : j < xs.length)
    (hx : xs.getD j na ≠ na)
    (hafter : ∀ k, j < k → k < xs.length → xs.getD k na = na) :
    lastNonNA na xs = xs.getD j na :=
  foldl_naStep_last na na xs j hj hx hafter

theorem lastNonNA_all (na : α) (xs : List α) (h : ∀ y ∈ xs, y = na) :
    lastNonNA na xs = na :=
  foldl_naStep_all na na xs h

theorem firstNonNA_nil (na : α) : firstNonNA na ([] : List α) = na := rfl

theorem firstNonNA_cons (na x : α) (xs : List α) :
    firstNonNA na (x :: xs) = if x = na then firstNonNA na xs else x := rfl

theorem firstNonNA_all (na : α) (xs : List α) (h : ∀ y ∈ xs, y = na) :
    firstNonNA na xs = na := by
  induction xs with
  | nil => rfl
  | cons x xs ih =>
    rw [firstNonNA_cons, if_pos (h x (by simp))]
    exact ih (fun y hy => h y (by simp [hy]))

theorem firstNonNA_first (na : α) (xs : List α) (j : Nat) (hj : j < xs.length)
    (hx : xs.getD j na ≠ na)
    (hbefore : ∀ k, k < j → xs.getD k na = na) :
    firstNonNA na xs = xs.getD j na := by
  induction xs generalizing j with
  | nil => simp at hj
  | cons x xs ih =>
    cases j with
    | zero =>
      simp only [List.getD_cons_zero] at hx ⊢
      rw [firstNonNA_cons, if_neg hx]
    | succ j =>
      simp only [List.getD_cons_succ] at hx ⊢
      have h0 : x = na := by
        have := hbefore 0 (Nat.succ_pos j)
        simpa using this
      rw [firstNonNA_cons, if_pos h0]
      refine ih j (by simpa using hj) hx (fun k hk => ?_)
      have := hbefore (k + 1) (Nat.succ_lt_succ hk)
      rwa [List.getD_cons_succ] at this

theorem firstNonNA_mem (na : α) (xs : List α) :
    firstNonNA na xs = na ∨ firstNonNA na xs ∈ xs := by
  induction xs with
  | nil => left; rfl
  | cons x xs ih =>
    rw [firstNonNA_cons]
    by_cases hx : x = na
    · rw [if_pos hx]
      rcases ih with h | h
      · left; exact h
      · right; exact List.mem_cons_of_mem x h
    · rw [if_neg hx]; right; exact List.mem_cons_self x xs

theorem bfillList_length (na : α) (xs : List α) : (bfillList na xs).length = xs.length := by
  induction xs with
  | nil => rfl
  | cons x xs ih => simp [bfillList, ih]

theorem bfillList_headD (na : α) (xs : List α) :
    (bfillList na xs).headD na = firstNonNA na xs := by
  induction xs with
  | nil => rfl
  | cons x xs ih =>
    show (if x = na then (bfillList na xs).headD na else x) = firstNonNA na (x :: xs)
    rw [firstNonNA_cons, ih]

theorem bfillList_get? (na : α) (xs : List α) (i : Nat) (hi : i < xs.length) :
    (bfillList na xs).get? i = some (firstNonNA na (xs.drop i)) := by
  induction xs generalizing i with
  | nil => simp at hi
  | cons x xs ih =>
    cases i with
    | zero =>
      rw [List.drop_zero]
      show ((if x = na then (bfillList na xs).headD na else x) :: bfillList na xs).get? 0
          = some (firstNonNA na (x :: xs))
      rw [List.get?_cons_zero, firstNonNA_cons, bfillList_headD]
    | succ i =>
      have hi2 : i < xs.length := by simpa using hi
      simpa [bfillList] using ih i hi2

theorem shiftList_length (na : α) (xs : List α) : (shiftList na xs).length = xs.length := by
  cases xs with
  | nil => rfl
  | cons x xs => simp [shiftList]

theorem shiftList_get?_zero (na : α) (xs : List α) (h : xs ≠ []) :
    (shiftList na xs).get? 0 = some na := by
  cases xs with
  | nil => exact absurd rfl h
  | cons x xs => rfl

theorem shiftList_get?_succ (na : α) (xs : List α) (i : Nat) (h : i + 1 < xs.length) :
    (shiftList na xs).get? (i + 1) = xs.get? i := by
  cases xs with
  | nil => simp at h
  | cons x xs =>
    show ((x :: xs).dropLast).get? i = (x :: xs).get? i
    rw [List.dropLast_eq_take, List.get?_eq_getElem?, List.get?_eq_getElem?,
      List.getElem?_take_of_lt]
    simpa using h

theorem getq_map {β : Type} (g : α → β) (l : List α) (i : Nat) :
    (l.map g).get? i = (l.get? i).map g := by
  simp [List.get?_eq_getElem?]

theorem getq_indexOf (l : List α) (a : α) (h : a ∈ l) :
    l.get? (l.indexOf a) = some a :=
  List.indexOf_get? h

end FillLemmas

theorem cellO_tabulate {α : Type} (h : String → Int → α) (rows : List Int)
    (cols : List String) (s : String) (d : Int) (hs : s ∈ cols) (hd : d ∈ rows) :
    (Frame.mk rows cols (cols.map (fun s => rows.map (h s)))).cellO d s = some (h s d) := by
  have hcol : (Frame.mk rows cols (cols.map (fun s => rows.map (h s)))).colAt s
      = rows.map (h s) := by
    unfold Frame.colAt
    simp only
    rw [List.getD_eq_getElem?_getD, ← List.get?_eq_getElem?, getq_map, getq_indexOf cols s hs]
    rfl
  unfold Frame.cellO
  rw [hcol, getq_map, getq_indexOf rows d hd]
  rfl

theorem colAt_tabulate {α : Type} (g : String → List α) (rows : List Int)
    (cols : List String) (s : String) (hs : s ∈ cols) :
    (Frame.mk rows cols (cols.map g)).colAt s = g s := by
  unfold Frame.colAt
  simp only
  rw [List.getD_eq_getElem?_getD, ← List.get?_eq_getElem?, getq_map, getq_indexOf cols s hs]
  rfl

example : calUnit 1 3 = [1, 2, 3] := by decide

theorem except_bind_ok {ε β γ : Type} (a : β) (f : β → Except ε γ) :
    (Except.ok a >>= f) = f a := rfl

theorem except_bind_error {ε β γ : Type} (e : ε) (f : β → Except ε γ) :
    ((Except.error e : Except ε β) >>= f) = .error e := rfl

theorem mapM_error {ε β γ : Type} (f : γ → Except ε β) :
    ∀ (l : List γ) (r : γ), r ∈ l → (∃ e, f r = .error e) → ∃ e2, l.mapM f = .error e2 := by
  intro l
  induction l with
  | nil => intro r hr _; simp at hr
  | cons x xs ih =>
    intro r hr hre
    rw [List.mapM_cons]
    cases hfx : f x with
    | error e => exact ⟨e, rfl⟩
    | ok y =>
      rcases List.mem_cons.mp hr with h | h
      · obtain ⟨e, he⟩ := hre
        rw [h, hfx] at he
        cases he
      · obtain ⟨e2, h2⟩ := ih r h hre
        refine ⟨e2, ?_⟩
        rw [except_bind_ok, h2]
        rfl

/-- C1. Interval-membership panel: in get_index_comp_df, for every entity of
the fetched rows (after date coercion) and every date d of the trading axis,
the cell is 1 exactly when some fetched record of that entity satisfies
in_date < d < out_date, strictly on both ends, an entity with several
intervals counting a date matching at least one of them; every other cell
is 0. -/
theorem index_comp_membership (cal : Int → Int → List Int) (start en : Int)
    (rows : List ConsRow) (msg : String) (crows : List CRow) (fr : Frame ℚ)
    (hco : rows.mapM coerceCons = Except.ok crows)
    (hok : get_index_comp_df cal start en (rows, msg) = .ok fr) :
    fr.cols = uniqSortS (crows.map (fun r => r.symbol)) ∧
    fr.rows = cal start en ∧
    ∀ s ∈ fr.cols, ∀ d ∈ fr.rows,
      (fr.cellO d s = some 1 ↔
        ∃ r ∈ crows, r.symbol = s ∧ r.in_d < (d : ℚ) ∧ (d : ℚ) < r.out_d) ∧
      (fr.cellO d s = some 0 ↔
        ¬ ∃ r ∈ crows, r.symbol = s ∧ r.in_d < (d : ℚ) ∧ (d : ℚ) < r.out_d) := by
  have hfr : fr = compPanel (cal start en) crows := by
    unfold get_index_comp_df at hok
    rw [hco] at hok
    exact (Except.ok.inj hok).symm
  subst hfr
  refine ⟨rfl, rfl, ?_⟩
  intro s hs d hd
  have hs2 : s ∈ uniqSortS (crows.map (fun r => r.symbol)) := hs
  have hd2 : d ∈ cal start en := hd
  have hcell : (compPanel (cal start en) crows).cellO d s = some (memberCell crows s d) := by
    have := cellO_tabulate (fun s d => memberCell crows s d) (cal start en)
      (uniqSortS (crows.map (fun r => r.symbol))) s d hs2 hd2
    exact this
  have hbool : ((crows.any fun r =>
        r.symbol == s && decide (r.in_d < (d : ℚ)) && decide ((d : ℚ) < r.out_d)) = true) ↔
      ∃ r ∈ crows, r.symbol = s ∧ r.in_d < (d : ℚ) ∧ (d : ℚ) < r.out_d := by
    simp [List.any_eq_true, and_assoc]
  constructor
  · rw [hcell]
    unfold memberCell
    by_cases hb : (crows.any fun r =>
        r.symbol == s && decide (r.in_d < (d : ℚ)) && decide ((d : ℚ) < r.out_d)) = true
    · rw [if_pos hb]
      exact ⟨fun _ => hbool.mp hb, fun _ => rfl⟩
    · rw [if_neg hb]
      constructor
      · intro h01
        exact absurd (Option.some.inj h01) (by norm_num)
      · intro hP
        exact absurd (hbool.mpr hP) hb
  · rw [hcell]
    unfold memberCell
    by_cases hb : (crows.any fun r =>
        r.symbol == s && decide (r.in_d < (d : ℚ)) && decide ((d : ℚ) < r.out_d)) = true
    · rw [if_pos hb]
      constructor
      · intro h01
        exact absurd (Option.some.inj h01) (by norm_num)
      · intro hP
        exact absurd (hbool.mp hb) hP
    · rw [if_neg hb]
      exact ⟨fun _ hP => hb (hbool.mpr hP), fun _ => rfl⟩

/-- Witness for C1, the boundary example of the spec: with one interval
(10, 20) on the axis 10..20, the date 11 is a member while 10 and 20 are
not. -/
theorem index_comp_membership_witness :
    (compPanel (calUnit 10 20) [⟨"X", 10, 20⟩]).cellO 11 "X" = some 1 ∧
    (compPanel (calUnit 10 20) [⟨"X", 10, 20⟩]).cellO 10 "X" = some 0 ∧
    (compPanel (calUnit 10 20) [⟨"X", 10, 20⟩]).cellO 20 "X" = some 0 := by
  have h := index_comp_membership calUnit 10 20 [⟨"X", Field.fstr "10", Field.fstr "20"⟩]
      "0," [⟨"X", 10, 20⟩] (compPanel (calUnit 10 20) [⟨"X", 10, 20⟩])
      (by decide) (by decide)
  refine ⟨?_, ?_, ?_⟩
  · exact (h.2.2 "X" (by decide) 11 (by decide)).1.mpr (by decide)
  · exact (h.2.2 "X" (by decide) 10 (by decide)).2.mpr (by decide)
  · exact (h.2.2 "X" (by decide) 20 (by decide)).2.mpr (by decide)

example :
    get_index_comp_df calUnit 10 20
      ([⟨"X", .fstr "10", .fstr "20"⟩], "0,") =
    .ok ⟨[10, 11, 12, 13, 14, 15, 16, 17, 18, 19, 20], ["X"],
         [[0, 1, 1, 1, 1, 1, 1, 1, 1, 1, 0]]⟩ := by decide


/-- C8. Membership date coercion in get_index_comp_df: a blank string maps to
the far-future sentinel 99999999, which is strictly above every 8-digit date;
a numeric-looking string parses to its integer value; a numeric value passes
through unchanged; and a value of any other type raises NotImplementedError,
making the whole query fail rather than being silently dropped. -/
theorem comp_date_coercion :
    (str2int (Field.fstr "") = .ok 99999999) ∧
    (∀ d : ℚ, d ≤ 99991231 → d < 99999999) ∧
    (∀ (s : String) (n : Int), pyInt? s = some n → str2int (Field.fstr s) = .ok (n : ℚ)) ∧
    (∀ q : ℚ, str2int (Field.fnum q) = .ok q) ∧
    (str2int Field.fother = .error "NotImplementedError") ∧
    (∀ (cal : Int → Int → List Int) (start en : Int) (rows : List ConsRow) (msg : String)
        (r : ConsRow), r ∈ rows →
      (r.in_date = Field.fother ∨ r.out_date = Field.fother) →
      ∃ e, get_index_comp_df cal start en (rows, msg) = .error e) := by
  refine ⟨rfl, ?_, ?_, fun q => rfl, rfl, ?_⟩
  · intro d hd
    calc d ≤ 99991231 := hd
    _ < 99999999 := by norm_num
  · intro s n h
    have hs : s ≠ "" := by
      intro he
      rw [he] at h
      simp [pyInt?] at h
    simp only [str2int]
    rw [if_neg hs, h]
  · intro cal start en rows msg r hr hoth
    have hre : ∃ e, coerceCons r = .error e := by
      rcases hoth with h | h
      · refine ⟨"NotImplementedError", ?_⟩
        unfold coerceCons
        rw [h]
        rfl
      · unfold coerceCons
        rw [h]
        cases hin : str2int r.in_date with
        | error e => exact ⟨e, rfl⟩
        | ok i => exact ⟨"NotImplementedError", rfl⟩
    obtain ⟨e2, h2⟩ := mapM_error coerceCons rows r hr hre
    refine ⟨e2, ?_⟩
    unfold get_index_comp_df
    rw [h2]
    rfl

/-- Witness for C8 at concrete inputs: a parsed numeric string, the sentinel
below 99999999, and a query with a field of another type failing whole. -/
theorem comp_date_coercion_witness :
    str2int (Field.fstr "20170809") = .ok 20170809 ∧
    (20170809 : ℚ) < 99999999 ∧
    get_index_comp_df calUnit 1 2
        ([⟨"X", Field.fother, Field.fstr "5"⟩], "0,") = .error "NotImplementedError" := by
  refine ⟨?_, ?_, ?_⟩
  · exact comp_date_coercion.2.2.1 "20170809" 20170809 (by decide)
  · exact comp_date_coercion.2.1 20170809 (by norm_num)
  · obtain ⟨e, he⟩ := comp_date_coercion.2.2.2.2.2 calUnit 1 2
      [⟨"X", Field.fother, Field.fstr "5"⟩] "0,"
      ⟨"X", Field.fother, Field.fstr "5"⟩ (by decide) (Or.inl rfl)
    decide

/-- C4 counterexample: a non-success fetch status is not propagated to the
caller of get_index_comp_df: the operation returns exactly the same bare
panel as under the success status, with no diagnostic message alongside, so
a panel is still produced from the failed fetch. -/
theorem error_swallowed_cex :
    get_index_comp_df calUnit 1 3 ([⟨"X", Field.fstr "1", Field.fstr "3"⟩], "-1,no data")
      = get_index_comp_df calUnit 1 3 ([⟨"X", Field.fstr "1", Field.fstr "3"⟩], "0,") ∧
    get_index_comp_df calUnit 1 3 ([⟨"X", Field.fstr "1", Field.fstr "3"⟩], "-1,no data")
      = .ok ⟨[1, 2, 3], ["X"], [[0, 1, 0]]⟩ :=
  ⟨rfl, by decide⟩

/-- C4 amended: the four panel-producing operations print a non-success fetch
status and otherwise ignore it: each returns only the panel, computed from the
fetched rows alone, so the result does not depend on the status message. -/
theorem error_status_ignored :
    (∀ (cal : Int → Int → List Int) (start en : Int) (rows : List ConsRow) (m m2 : String),
      get_index_comp_df cal start en (rows, m) = get_index_comp_df cal start en (rows, m2)) ∧
    (∀ (cal : Int → Int → List Int) (start en : Int) (tds : List Int)
        (fetch : Int → List (String × ℚ)) (m m2 : Int → String),
      get_index_weights_daily cal start en tds fetch m
        = get_index_weights_daily cal start en tds fetch m2) ∧
    (∀ (cal : Int → Int → List Int) (start en : Int) (symbols : List String)
        (rows : List IndRow) (m m2 : String),
      get_industry_daily cal start en symbols (rows, m)
        = get_industry_daily cal start en symbols (rows, m2)) ∧
    (∀ (cal : Int → Int → List Int) (symbols : List String) (start en : Int)
        (rowsF : Int → Int → List AdjRow) (m m2 : Int → Int → String) (dv : Bool),
      get_adj_factor_daily cal symbols start en (fun a b => (rowsF a b, m a b)) dv
        = get_adj_factor_daily cal symbols start en (fun a b => (rowsF a b, m2 a b)) dv) :=
  ⟨fun _ _ _ _ _ _ => rfl, fun _ _ _ _ _ _ _ => rfl, fun _ _ _ _ _ _ _ => rfl,
   fun _ _ _ _ _ _ _ _ => rfl⟩

/-- Dates observed in the raw adjustment-factor rows of one query. -/
def adjObserved (fetchAdj : Int → Int → List AdjRow × String) (start en : Int) : List Int :=
  (get_adj_factor_raw fetchAdj start en).map (fun r => r.trade_date)

/-- Trading-date span from the minimum to the maximum observed trade date of
one adjustment-factor query. -/
def adjSpan (cal : Int → Int → List Int) (fetchAdj : Int → Int → List AdjRow × String)
    (start en : Int) : List Int :=
  cal (minList (adjObserved fetchAdj start en)) (maxList (adjObserved fetchAdj start en))

theorem uniqSortI_mem (l : List Int) (a : Int) : a ∈ uniqSortI l ↔ a ∈ l := by
  unfold uniqSortI
  rw [List.mem_dedup]
  exact (List.perm_insertionSort _ l).mem_iff

theorem uniqSortI_nodup (l : List Int) : (uniqSortI l).Nodup := List.nodup_dedup _

theorem uniqSortI_sorted (l : List Int) : List.Sorted (· ≤ ·) (uniqSortI l) :=
  List.Pairwise.sublist (List.dedup_sublist _) (List.sorted_insertionSort _ l)

theorem uniqSortS_mem (l : List String) (a : String) : a ∈ uniqSortS l ↔ a ∈ l := by
  unfold uniqSortS
  rw [List.mem_dedup]
  exact (List.perm_insertionSort _ l).mem_iff

theorem sortS_mem (l : List String) (a : String) : a ∈ sortS l ↔ a ∈ l :=
  (List.perm_insertionSort _ l).mem_iff

theorem adj_daily_rows (cal : Int → Int → List Int) (symbols : List String) (start en : Int)
    (fetchAdj : Int → Int → List AdjRow × String) (dv : Bool) :
    (get_adj_factor_daily cal symbols start en fetchAdj dv).rows =
      if (adjSpan cal fetchAdj start en).length
          = (uniqSortI (adjObserved fetchAdj start en)).length
      then uniqSortI (adjObserved fetchAdj start en)
      else adjSpan cal fetchAdj start en := by
  simp only [get_adj_factor_daily, adjSpan, adjObserved]
  by_cases hlen : (cal (minList ((get_adj_factor_raw fetchAdj start en).map (fun r => r.trade_date)))
      (maxList ((get_adj_factor_raw fetchAdj start en).map (fun r => r.trade_date)))).length
      = (uniqSortI ((get_adj_factor_raw fetchAdj start en).map (fun r => r.trade_date))).length
  · simp only [if_pos hlen]
    cases dv <;> rfl
  · simp only [if_neg hlen]
    cases dv <;> rfl

theorem adj_daily_cols (cal : Int → Int → List Int) (symbols : List String) (start en : Int)
    (fetchAdj : Int → Int → List AdjRow × String) (dv : Bool) :
    (get_adj_factor_daily cal symbols start en fetchAdj dv).cols = sortS symbols := by
  simp only [get_adj_factor_daily]
  by_cases hlen : (cal (minList ((get_adj_factor_raw fetchAdj start en).map (fun r => r.trade_date)))
      (maxList ((get_adj_factor_raw fetchAdj start en).map (fun r => r.trade_date)))).length
      = (uniqSortI ((get_adj_factor_raw fetchAdj start en).map (fun r => r.trade_date))).length
  · simp only [if_pos hlen]
    cases dv <;> rfl
  · simp only [if_neg hlen]
    cases dv <;> rfl

/-- C3 counterexample: querying get_adj_factor_daily for the two symbols A and
B while the fetch returns rows only for A yields the columns A, B: the column
set is not the deduplicated sorted set of entity ids of the fetched rows,
which is just A. -/
theorem universe_columns_cex :
    (get_adj_factor_daily calUnit ["A", "B"] 1 2
        (fun _ _ => ([⟨"A", 1, 2⟩], "0,")) false).cols = ["A", "B"] ∧
    uniqSortS (((fun (_ _ : Int) => ([(⟨"A", 1, 2⟩ : AdjRow)], "0,")) 1 2).1.map
        (fun r => r.symbol)) = ["A"] ∧
    (["A", "B"] : List String) ≠ ["A"] := by
  refine ⟨?_, by decide, by decide⟩
  rw [adj_daily_cols]
  decide

/-- C3 amended: get_index_comp_df and get_index_weights_daily do take as
column set the deduplicated, lexicographically sorted entity ids of the
fetched rows, but get_industry_daily and get_adj_factor_daily use the sorted
list of requested symbols as columns, regardless of which of them occur in the
fetched rows. -/
theorem universe_columns_amended :
    (∀ (cal : Int → Int → List Int) (start en : Int) (rows : List ConsRow) (msg : String)
        (crows : List CRow) (fr : Frame ℚ),
      rows.mapM coerceCons = Except.ok crows →
      get_index_comp_df cal start en (rows, msg) = .ok fr →
      fr.cols = uniqSortS (crows.map (fun r => r.symbol))) ∧
    (∀ (cal : Int → Int → List Int) (start en : Int) (tds : List Int)
        (fetch : Int → List (String × ℚ)) (msgs : Int → String),
      (get_index_weights_daily cal start en tds fetch msgs).cols
        = uniqSortS (tds.flatMap (fun td => (fetch td).map Prod.fst))) ∧
    (∀ (cal : Int → Int → List Int) (start en : Int) (symbols : List String)
        (fetched : List IndRow × String),
      (get_industry_daily cal start en symbols fetched).cols = sortS symbols) ∧
    (∀ (cal : Int → Int → List Int) (symbols : List String) (start en : Int)
        (fetchAdj : Int → Int → List AdjRow × String) (dv : Bool),
      (get_adj_factor_daily cal symbols start en fetchAdj dv).cols = sortS symbols) := by
  refine ⟨?_, fun _ _ _ _ _ _ => rfl, fun _ _ _ _ _ => rfl, adj_daily_cols⟩
  intro cal start en rows msg crows fr hco hok
  have hfr : fr = compPanel (cal start en) crows := by
    unfold get_index_comp_df at hok
    rw [hco] at hok
    exact (Except.ok.inj hok).symm
  rw [hfr]
  rfl

/-- Witness for C3 amended at a concrete successful membership query. -/
theorem universe_columns_amended_witness :
    get_index_comp_df calUnit 1 2 ([⟨"Y", Field.fstr "1", Field.fstr "2"⟩], "0,")
      = .ok (compPanel (calUnit 1 2) [⟨"Y", 1, 2⟩]) ∧
    (compPanel (calUnit 1 2) [⟨"Y", 1, 2⟩]).cols = ["Y"] := by
  refine ⟨by decide, ?_⟩
  have h := universe_columns_amended.1 calUnit 1 2 [⟨"Y", Field.fstr "1", Field.fstr "2"⟩]
      "0," [⟨"Y", 1, 2⟩] (compPanel (calUnit 1 2) [⟨"Y", 1, 2⟩]) (by decide) (by decide)
  rw [h]
  decide

/-- C9. The row axis of get_adj_factor_daily is always the trading-date span
from the minimum to the maximum observed trade date of the fetched records
(provided the observed dates are themselves trading dates of that span); the
requested start and en only reach the fetcher, so whenever fetched records
extend beyond the requested window the result contains rows outside it. -/
theorem adj_axis_ignores_window (cal : Int → Int → List Int) (symbols : List String)
    (start en : Int) (fetchAdj : Int → Int → List AdjRow × String) (dv : Bool)
    (hsor : List.Sorted (· ≤ ·) (adjSpan cal fetchAdj start en))
    (hmem : ∀ r ∈ get_adj_factor_raw fetchAdj start en,
      r.trade_date ∈ adjSpan cal fetchAdj start en) :
    (get_adj_factor_daily cal symbols start en fetchAdj dv).rows
      = adjSpan cal fetchAdj start en ∧
    ∀ st2 en2 : Int, ∀ r ∈ get_adj_factor_raw fetchAdj start en,
      (r.trade_date < st2 ∨ en2 < r.trade_date) →
      ∃ d ∈ (get_adj_factor_daily cal symbols start en fetchAdj dv).rows,
        d < st2 ∨ en2 < d := by
  have hsub : uniqSortI (adjObserved fetchAdj start en) ⊆ adjSpan cal fetchAdj start en := by
    intro x hx
    have hx2 : x ∈ adjObserved fetchAdj start en := (uniqSortI_mem _ x).mp hx
    obtain ⟨r, hr, hrx⟩ := List.mem_map.mp hx2
    exact hrx ▸ hmem r hr
  have hmain : (get_adj_factor_daily cal symbols start en fetchAdj dv).rows
      = adjSpan cal fetchAdj start en := by
    rw [adj_daily_rows]
    by_cases hlen : (adjSpan cal fetchAdj start en).length
        = (uniqSortI (adjObserved fetchAdj start en)).length
    · rw [if_pos hlen]
      have hperm : List.Perm (uniqSortI (adjObserved fetchAdj start en))
          (adjSpan cal fetchAdj start en) :=
        ((uniqSortI_nodup _).subperm hsub).perm_of_length_le (le_of_eq hlen)
      exact List.eq_of_perm_of_sorted hperm (uniqSortI_sorted _) hsor
    · rw [if_neg hlen]

  refine ⟨hmain, ?_⟩
  intro st2 en2 r hr hout
  refine ⟨r.trade_date, ?_, hout⟩
  rw [hmain]
  exact hmem r hr

/-- Witness for C9: records at dates 1 and 3 with a requested window of 2..3
give the full axis 1, 2, 3 including the date 1 outside the window. -/
theorem adj_axis_ignores_window_witness :
    (get_adj_factor_daily calUnit ["A"] 2 3
        (fun _ _ => ([⟨"A", 1, 1⟩, ⟨"A", 3, 2⟩], "0,")) false).rows = [1, 2, 3] ∧
    (1 : Int) ∈ (get_adj_factor_daily calUnit ["A"] 2 3
        (fun _ _ => ([⟨"A", 1, 1⟩, ⟨"A", 3, 2⟩], "0,")) false).rows ∧
    ((1 : Int) < 2 ∨ (3 : Int) < 1) := by
  have h := adj_axis_ignores_window calUnit ["A"] 2 3
      (fun _ _ => ([⟨"A", 1, 1⟩, ⟨"A", 3, 2⟩], "0,")) false (by decide) (by decide)
  refine ⟨h.1.trans (by decide), ?_, by norm_num⟩
  rw [h.1]
  decide

/-- Ratio transform applied by get_adj_factor_daily when div is true
(dataservice.py line 730): divide the panel by its one-row shift and fill NaN
cells with 1.0. -/
def ratioF (g : Frame PVal) : Frame PVal :=
  Frame.mapCols (fillConst PVal.nan (PVal.val 1))
    (divF g (Frame.mapCols (shiftList PVal.nan) g))

/-- Fill a single NaN cell with 1.0, as fillna(1.0) does per cell. -/
def fill1 (x : PVal) : PVal := if x = PVal.nan then PVal.val 1 else x

theorem pdiv_nan (x : PVal) : pdiv x PVal.nan = PVal.nan := by cases x <;> rfl

theorem adj_daily_div (cal : Int → Int → List Int) (symbols : List String) (start en : Int)
    (fetchAdj : Int → Int → List AdjRow × String) :
    get_adj_factor_daily cal symbols start en fetchAdj true
      = ratioF (get_adj_factor_daily cal symbols start en fetchAdj false) := rfl

theorem adj_daily_data_length (cal : Int → Int → List Int) (symbols : List String)
    (start en : Int) (fetchAdj : Int → Int → List AdjRow × String) (dv : Bool) :
    (get_adj_factor_daily cal symbols start en fetchAdj dv).data.length
      = (sortS symbols).length := by
  simp only [get_adj_factor_daily]
  by_cases hlen : (cal (minList ((get_adj_factor_raw fetchAdj start en).map (fun r => r.trade_date)))
      (maxList ((get_adj_factor_raw fetchAdj start en).map (fun r => r.trade_date)))).length
      = (uniqSortI ((get_adj_factor_raw fetchAdj start en).map (fun r => r.trade_date))).length
  · simp only [if_pos hlen]
    cases dv
    · simp
    · simp [divF, Frame.mapCols, List.length_zipWith]
  · simp only [if_neg hlen]
    cases dv
    · simp [Frame.mapCols, reindexF]
    · simp [divF, Frame.mapCols, reindexF, List.length_zipWith]

theorem ratioF_colAt (g : Frame PVal) (s : String) (col : List PVal)
    (hcol : g.data.get? (g.cols.indexOf s) = some col) :
    (ratioF g).colAt s
      = fillConst PVal.nan (PVal.val 1) (List.zipWith pdiv col (shiftList PVal.nan col)) := by
  have hz : (List.zipWith (List.zipWith pdiv) g.data
      (g.data.map (shiftList PVal.nan))).get? (g.cols.indexOf s)
      = some (List.zipWith pdiv col (shiftList PVal.nan col)) :=
    (List.get?_zipWith_eq_some _ _ _ _ _).mpr
      ⟨col, shiftList PVal.nan col, hcol, by rw [getq_map, hcol]; rfl, rfl⟩
  unfold ratioF Frame.mapCols divF Frame.colAt
  simp only
  rw [List.getD_eq_getElem?_getD, ← List.get?_eq_getElem?, getq_map, hz]
  rfl

/-- C2 amended. With div true, get_adj_factor_daily returns the absolute panel
divided cellwise by its previous row: the first row is 1.0 for every entity
(its shifted denominator is NaN, and NaN results are filled with 1.0), and
every later cell is fill1 (pdiv current previous): a NaN denominator, a NaN
numerator or 0/0 gives 1.0, while a nonzero value divided by zero gives a
signed infinity, not 1.0. -/
theorem adj_ratio_cells (cal : Int → Int → List Int) (symbols : List String) (start en : Int)
    (fetchAdj : Int → Int → List AdjRow × String) (s : String)
    (hs : s ∈ (get_adj_factor_daily cal symbols start en fetchAdj false).cols) :
    (get_adj_factor_daily cal symbols start en fetchAdj true).rows
      = (get_adj_factor_daily cal symbols start en fetchAdj false).rows ∧
    (get_adj_factor_daily cal symbols start en fetchAdj true).cols
      = (get_adj_factor_daily cal symbols start en fetchAdj false).cols ∧
    (∀ a0 : PVal,
      ((get_adj_factor_daily cal symbols start en fetchAdj false).colAt s).get? 0 = some a0 →
      ((get_adj_factor_daily cal symbols start en fetchAdj true).colAt s).get? 0
        = some (PVal.val 1)) ∧
    (∀ (i : Nat) (a b : PVal),
      ((get_adj_factor_daily cal symbols start en fetchAdj false).colAt s).get? (i + 1)
        = some a →
      ((get_adj_factor_daily cal symbols start en fetchAdj false).colAt s).get? i = some b →
      ((get_adj_factor_daily cal symbols start en fetchAdj true).colAt s).get? (i + 1)
        = some (fill1 (pdiv a b))) := by
  have hdiv := adj_daily_div cal symbols start en fetchAdj
  have hlen : (get_adj_factor_daily cal symbols start en fetchAdj false).data.length
      = (get_adj_factor_daily cal symbols start en fetchAdj false).cols.length := by
    rw [adj_daily_data_length, adj_daily_cols]
  have hci : (get_adj_factor_daily cal symbols start en fetchAdj false).cols.indexOf s
      < (get_adj_factor_daily cal symbols start en fetchAdj false).data.length := by
    rw [hlen]
    exact List.indexOf_lt_length.mpr hs
  obtain ⟨col, hcol⟩ : ∃ col, (get_adj_factor_daily cal symbols start en fetchAdj false).data.get?
      ((get_adj_factor_daily cal symbols start en fetchAdj false).cols.indexOf s) = some col := by
    rw [List.get?_eq_getElem?]
    exact ⟨_, List.getElem?_eq_getElem hci⟩
  have hcolAt : (get_adj_factor_daily cal symbols start en fetchAdj false).colAt s = col := by
    unfold Frame.colAt
    rw [List.getD_eq_getElem?_getD, ← List.get?_eq_getElem?, hcol]
    rfl
  have hR := ratioF_colAt (get_adj_factor_daily cal symbols start en fetchAdj false) s col hcol
  refine ⟨by rw [hdiv]; rfl, by rw [hdiv]; rfl, ?_, ?_⟩
  · intro a0 h0
    rw [hcolAt] at h0
    have hcne : col ≠ [] := by
      intro he
      rw [he] at h0
      cases h0
    rw [hdiv, hR]
    unfold fillConst
    rw [getq_map]
    have hs0 : (shiftList PVal.nan col).get? 0 = some PVal.nan :=
      shiftList_get?_zero PVal.nan col hcne
    have hz0 : (List.zipWith pdiv col (shiftList PVal.nan col)).get? 0
        = some (pdiv a0 PVal.nan) :=
      (List.get?_zipWith_eq_some _ _ _ _ _).mpr ⟨a0, PVal.nan, h0, hs0, rfl⟩
    rw [hz0]
    simp [pdiv_nan]
  · intro i a b ha hb
    rw [hcolAt] at ha hb
    rw [hdiv, hR]
    unfold fillConst
    rw [getq_map]
    have hlen2 : i + 1 < col.length := by
      by_contra hcon
      push_neg at hcon
      rw [List.get?_eq_getElem?, List.getElem?_eq_none hcon] at ha
      cases ha
    have hsi : (shiftList PVal.nan col).get? (i + 1) = col.get? i :=
      shiftList_get?_succ PVal.nan col i hlen2
    have hz : (List.zipWith pdiv col (shiftList PVal.nan col)).get? (i + 1)
        = some (pdiv a b) :=
      (List.get?_zipWith_eq_some _ _ _ _ _).mpr ⟨a, b, ha, by rw [hsi]; exact hb, rfl⟩
    rw [hz]
    rfl

/-- C2 counterexample: an absolute factor of 0 on the first day and 2 on the
second: the ratio cell of the second day divides 2 by 0 and is positive
infinity, not the 1.0 the claim asserts for a zero denominator. -/
theorem adj_ratio_zero_denominator_cex :
    (get_adj_factor_daily calUnit ["A"] 1 2
        (fun _ _ => ([⟨"A", 1, 0⟩, ⟨"A", 2, 2⟩], "0,")) true).cellO 2 "A"
      = some PVal.pinf ∧
    PVal.pinf ≠ PVal.val 1 := ⟨by decide, by decide⟩

/-- Witness for C2 amended at a concrete two-day query with factors 2 then
3. -/
theorem adj_ratio_cells_witness :
    ((get_adj_factor_daily calUnit ["A"] 1 2
        (fun _ _ => ([⟨"A", 1, 2⟩, ⟨"A", 2, 3⟩], "0,")) true).colAt "A").get? 0
      = some (PVal.val 1) ∧
    ((get_adj_factor_daily calUnit ["A"] 1 2
        (fun _ _ => ([⟨"A", 1, 2⟩, ⟨"A", 2, 3⟩], "0,")) true).colAt "A").get? 1
      = some (fill1 (pdiv (PVal.val 3) (PVal.val 2))) := by
  have h := adj_ratio_cells calUnit ["A"] 1 2
      (fun _ _ => ([⟨"A", 1, 2⟩, ⟨"A", 2, 3⟩], "0,")) "A" (by decide)
  exact ⟨h.2.2.1 (PVal.val 2) (by decide),
         h.2.2.2 0 (PVal.val 3) (PVal.val 2) (by decide) (by decide)⟩

section FillSemantics

variable {α : Type} [DecidableEq α]

theorem getD_eq_of_get? (l : List α) (n : Nat) (d x : α) (h : l.get? n = some x) :
    l.getD n d = x := by
  rw [List.getD_eq_getElem?_getD, ← List.get?_eq_getElem?, h]
  rfl

theorem get?_eq_some_getD (l : List α) (n : Nat) (d : α) (hn : n < l.length) :
    l.get? n = some (l.getD n d) := by
  rw [List.get?_eq_getElem?, List.getElem?_eq_getElem hn, List.getD_eq_getElem l d hn]

theorem getD_take_lt (l : List α) (n m : Nat) (d : α) (h : m < n) :
    (l.take n).getD m d = l.getD m d := by
  rw [List.getD_eq_getElem?_getD, List.getD_eq_getElem?_getD, List.getElem?_take_of_lt h]

theorem getD_drop_add (l : List α) (i k : Nat) (d : α) :
    (l.drop i).getD k d = l.getD (i + k) d := by
  rw [List.getD_eq_getElem?_getD, List.getD_eq_getElem?_getD, List.getElem?_drop]

theorem getD_map_apply {β : Type} (f : α → β) (l : List α) (j : Nat) (d : β) (d0 : α)
    (hj : j < l.length) :
    (l.map f).getD j d = f (l.getD j d0) := by
  rw [List.getD_eq_getElem?_getD, List.getElem?_map, List.getElem?_eq_getElem hj,
      List.getD_eq_getElem l d0 hj]
  rfl

theorem mem_getD (l : List α) (y d : α) (h : y ∈ l) :
    ∃ m, m < l.length ∧ l.getD m d = y := by
  obtain ⟨m, hm, hy⟩ := List.mem_iff_getElem.mp h
  exact ⟨m, hm, by rw [List.getD_eq_getElem l d hm, hy]⟩

theorem ffillList_length (na : α) (xs : List α) : (ffillList na xs).length = xs.length :=
  ffillGo_length na na xs

theorem ffill_get_last (na : α) (xs : List α) (i j : Nat) (hi : i < xs.length) (hj : j ≤ i)
    (hne : xs.getD j na ≠ na)
    (hafter : ∀ k, j < k → k ≤ i → xs.getD k na = na) :
    (ffillList na xs).get? i = some (xs.getD j na) := by
  rw [ffillList_get? na xs i hi]
  congr 1
  have hlen : (xs.take (i + 1)).length = i + 1 := by
    rw [List.length_take]
    omega
  refine (lastNonNA_last na (xs.take (i + 1)) j (by omega) ?_ ?_).trans ?_
  · rw [getD_take_lt xs (i + 1) j na (by omega)]
    exact hne
  · intro k hk hk2
    rw [hlen] at hk2
    rw [getD_take_lt xs (i + 1) k na (by omega)]
    exact hafter k hk (by omega)
  · rw [getD_take_lt xs (i + 1) j na (by omega)]

theorem ffill_get_na (na : α) (xs : List α) (i : Nat) (hi : i < xs.length)
    (hall : ∀ k, k ≤ i → xs.getD k na = na) :
    (ffillList na xs).get? i = some na := by
  rw [ffillList_get? na xs i hi]
  congr 1
  apply lastNonNA_all
  intro y hy
  obtain ⟨m, hm, hval⟩ := mem_getD (xs.take (i + 1)) y na hy
  rw [List.length_take] at hm
  have hmi : m ≤ i := by omega
  rw [getD_take_lt xs (i + 1) m na (by omega)] at hval
  rw [← hval]
  exact hall m hmi

theorem fb_get_last (na : α) (xs : List α) (i j : Nat) (hi : i < xs.length) (hj : j ≤ i)
    (hne : xs.getD j na ≠ na)
    (hafter : ∀ k, j < k → k ≤ i → xs.getD k na = na) :
    (bfillList na (ffillList na xs)).get? i = some (xs.getD j na) := by
  have hq := ffill_get_last na xs i j hi hj hne hafter
  have hqlen : i < (ffillList na xs).length := by
    rw [ffillList_length]
    exact hi
  rw [bfillList_get? na _ i hqlen]
  congr 1
  have h0 : ((ffillList na xs).drop i).getD 0 na = xs.getD j na := by
    rw [getD_drop_add _ i 0 na]
    exact getD_eq_of_get? _ _ _ _ hq
  refine (firstNonNA_first na _ 0 ?_ ?_ ?_).trans h0
  · rw [List.length_drop, ffillList_length]
    omega
  · rw [h0]
    exact hne
  · intro k hk
    exact absurd hk (Nat.not_lt_zero k)

theorem fb_get_first (na : α) (xs : List α) (i j : Nat) (hij : i < j) (hj : j < xs.length)
    (hne : xs.getD j na ≠ na)
    (hbefore : ∀ k, k < j → xs.getD k na = na) :
    (bfillList na (ffillList na xs)).get? i = some (xs.getD j na) := by
  have hqlen : (ffillList na xs).length = xs.length := ffillList_length na xs
  have hi : i < xs.length := lt_trans hij hj
  rw [bfillList_get? na _ i (by rw [hqlen]; exact hi)]
  congr 1
  have hjq : (ffillList na xs).get? j = some (xs.getD j na) :=
    ffill_get_last na xs j j hj le_rfl hne (fun k h1 h2 => absurd h1 (by omega))
  have hsplit : i + (j - i) = j := by omega
  refine (firstNonNA_first na ((ffillList na xs).drop i) (j - i) ?_ ?_ ?_).trans ?_
  · rw [List.length_drop, hqlen]
    omega
  · rw [getD_drop_add _ i (j - i) na, hsplit, getD_eq_of_get? _ _ _ _ hjq]
    exact hne
  · intro k hk
    rw [getD_drop_add _ i k na]
    have hikj : i + k < j := by omega
    have hknan : (ffillList na xs).get? (i + k) = some na :=
      ffill_get_na na xs (i + k) (by omega) (fun m hm => hbefore m (by omega))
    exact getD_eq_of_get? _ _ _ _ hknan
  · rw [getD_drop_add _ i (j - i) na, hsplit]
    exact getD_eq_of_get? _ _ _ _ hjq

theorem fb_get_all_na (na : α) (xs : List α) (i : Nat) (hi : i < xs.length)
    (hall : ∀ k, k < xs.length → xs.getD k na = na) :
    (bfillList na (ffillList na xs)).get? i = some na := by
  have hqlen : (ffillList na xs).length = xs.length := ffillList_length na xs
  rw [bfillList_get? na _ i (by rw [hqlen]; exact hi)]
  congr 1
  apply firstNonNA_all
  intro y hy
  obtain ⟨m, hm, hval⟩ := mem_getD _ y na hy
  rw [List.length_drop, hqlen] at hm
  rw [getD_drop_add _ i m na] at hval
  have hnan : (ffillList na xs).get? (i + m) = some na :=
    ffill_get_na na xs (i + m) (by omega) (fun k hk => hall k (by omega))
  rw [getD_eq_of_get? _ _ _ _ hnan] at hval
  exact hval.symm

end FillSemantics

theorem map_congr_on {α β : Type} (l : List α) (f g : α → β) (h : ∀ a ∈ l, f a = g a) :
    l.map f = l.map g := by
  induction l with
  | nil => rfl
  | cons x xs ih =>
    rw [List.map_cons, List.map_cons, h x (List.mem_cons_self x xs)]
    rw [ih (fun a ha => h a (List.mem_cons_of_mem x ha))]

theorem placed_foldl_const (s : String) (d : Int) (raw : List AdjRow)
    (hd : ∀ r ∈ raw, r.trade_date ≠ d) (acc : PVal) :
    raw.foldl (fun acc r => if r.symbol == s && r.trade_date == d
      then PVal.val r.adjust_factor else acc) acc = acc := by
  induction raw generalizing acc with
  | nil => rfl
  | cons r rs ih =>
    rw [List.foldl_cons]
    have hcond : ¬ ((r.symbol == s && r.trade_date == d) = true) := by
      intro hc
      have hparts := (Bool.and_eq_true _ _).mp hc
      exact hd r (List.mem_cons_self r rs) (by simpa using hparts.2)
    rw [if_neg hcond]
    exact ih (fun x hx => hd x (List.mem_cons_of_mem r hx)) acc

theorem placedAdj_not_mem (raw : List AdjRow) (s : String) (d : Int)
    (hd : d ∉ raw.map (fun r => r.trade_date)) : placedAdj raw s d = PVal.nan := by
  unfold placedAdj
  apply placed_foldl_const
  intro r hr he
  exact hd (List.mem_map.mpr ⟨r, hr, he⟩)

theorem reindex_placed_cell (raw : List AdjRow) (s : String) (d : Int) :
    ((uniqSortI (raw.map (fun r => r.trade_date))).map (placedAdj raw s)).getD
      ((uniqSortI (raw.map (fun r => r.trade_date))).indexOf d) PVal.nan
      = placedAdj raw s d := by
  by_cases hd : d ∈ uniqSortI (raw.map (fun r => r.trade_date))
  · have hlt : (uniqSortI (raw.map (fun r => r.trade_date))).indexOf d
        < (uniqSortI (raw.map (fun r => r.trade_date))).length :=
      List.indexOf_lt_length.mpr hd
    rw [getD_map_apply (placedAdj raw s) _ _ PVal.nan 0 hlt]
    congr 1
    exact getD_eq_of_get? _ _ 0 d (getq_indexOf _ d hd)
  · have hnm : d ∉ raw.map (fun r => r.trade_date) :=
      fun hc => hd ((uniqSortI_mem _ d).mpr hc)
    rw [placedAdj_not_mem raw s d hnm]
    apply List.getD_eq_default
    rw [List.length_map]
    exact le_of_eq (List.indexOf_eq_length.mpr hd).symm

/-- Per-symbol placement and conditional fill step of get_adj_factor_daily
(dataservice.py lines 709 to 727), factored out of the embedding: values are
placed at their observed dates with the sorted requested symbols as columns;
when the length of the trading span differs from the number of observed dates,
the frame is reindexed onto the span and forward filled then backward filled,
otherwise no fill at all happens. -/
def adjFilled (cal : Int → Int → List Int) (symbols : List String) (raw : List AdjRow) :
    Frame PVal :=
  let idx := uniqSortI (raw.map (fun r => r.trade_date))
  let cols := sortS symbols
  let base : Frame PVal := ⟨idx, cols, cols.map (fun s => idx.map (placedAdj raw s))⟩
  let lo := minList (raw.map (fun r => r.trade_date))
  let hi := maxList (raw.map (fun r => r.trade_date))
  let dates_arr := cal lo hi
  if dates_arr.length = idx.length then base
  else Frame.mapCols (fun col => bfillList PVal.nan (ffillList PVal.nan col))
         (reindexF PVal.nan dates_arr base)

theorem adj_daily_false (cal : Int → Int → List Int) (symbols : List String) (start en : Int)
    (fetchAdj : Int → Int → List AdjRow × String) :
    get_adj_factor_daily cal symbols start en fetchAdj false
      = adjFilled cal symbols (get_adj_factor_raw fetchAdj start en) := rfl

theorem adjFilled_colAt (cal : Int → Int → List Int) (symbols : List String)
    (raw : List AdjRow) (s : String) (hs : s ∈ sortS symbols) :
    (adjFilled cal symbols raw).colAt s =
      if (cal (minList (raw.map (fun r => r.trade_date)))
            (maxList (raw.map (fun r => r.trade_date)))).length
          = (uniqSortI (raw.map (fun r => r.trade_date))).length
      then (uniqSortI (raw.map (fun r => r.trade_date))).map (placedAdj raw s)
      else bfillList PVal.nan (ffillList PVal.nan
        ((cal (minList (raw.map (fun r => r.trade_date)))
            (maxList (raw.map (fun r => r.trade_date)))).map (placedAdj raw s))) := by
  simp only [adjFilled]
  by_cases hlen : (cal (minList (raw.map (fun r => r.trade_date)))
      (maxList (raw.map (fun r => r.trade_date)))).length
      = (uniqSortI (raw.map (fun r => r.trade_date))).length
  · simp only [if_pos hlen]
    exact colAt_tabulate
      (fun s => (uniqSortI (raw.map (fun r => r.trade_date))).map (placedAdj raw s))
      (uniqSortI (raw.map (fun r => r.trade_date))) (sortS symbols) s hs
  · simp only [if_neg hlen]
    have hframe : Frame.mapCols (fun col => bfillList PVal.nan (ffillList PVal.nan col))
        (reindexF PVal.nan
          (cal (minList (raw.map (fun r => r.trade_date)))
            (maxList (raw.map (fun r => r.trade_date))))
          ⟨uniqSortI (raw.map (fun r => r.trade_date)), sortS symbols,
           (sortS symbols).map (fun s =>
             (uniqSortI (raw.map (fun r => r.trade_date))).map (placedAdj raw s))⟩)
        = Frame.mk
            (cal (minList (raw.map (fun r => r.trade_date)))
              (maxList (raw.map (fun r => r.trade_date))))
            (sortS symbols)
            ((sortS symbols).map (fun s =>
              bfillList PVal.nan (ffillList PVal.nan
                ((cal (minList (raw.map (fun r => r.trade_date)))
                    (maxList (raw.map (fun r => r.trade_date)))).map
                  (fun d => ((uniqSortI (raw.map (fun r => r.trade_date))).map
                      (placedAdj raw s)).getD
                    ((uniqSortI (raw.map (fun r => r.trade_date))).indexOf d) PVal.nan))))) := by
      unfold Frame.mapCols reindexF
      simp only
      rw [List.map_map, List.map_map]
      rfl
    rw [hframe]
    rw [colAt_tabulate (fun s =>
        bfillList PVal.nan (ffillList PVal.nan
          ((cal (minList (raw.map (fun r => r.trade_date)))
              (maxList (raw.map (fun r => r.trade_date)))).map
            (fun d => ((uniqSortI (raw.map (fun r => r.trade_date))).map
                (placedAdj raw s)).getD
              ((uniqSortI (raw.map (fun r => r.trade_date))).indexOf d) PVal.nan))))
      _ _ s hs]
    congr 1
    congr 1
    exact map_congr_on _ _ _ (fun d hd => reindex_placed_cell raw s d)

/-- C5 counterexample: symbol A has factors on dates 1 and 3 and symbol B on
date 2, so the observed dates 1, 2, 3 already equal the trading span 1, 2, 3
and the conditional reindex-and-fill clause of the claim does not apply. The
claimed unconditional forward-fill-last-known per entity would set the cell of
A at date 2 to the carried 1.0 — and would leave no unfilled cell there — but
get_adj_factor_daily applies no per-entity forward fill at all and returns
that cell unfilled (NaN). -/
theorem adj_fill_no_ffill_cex :
    (get_adj_factor_daily calUnit ["A", "B"] 1 3
        (fun _ _ => ([⟨"A", 1, 1⟩, ⟨"A", 3, 2⟩, ⟨"B", 2, 5⟩], "0,")) false).cellO 2 "A"
      = some PVal.nan ∧
    PVal.nan ≠ PVal.val 1 := ⟨by decide, by decide⟩

/-- C5 amended. get_adj_factor_daily places each factor at its observed date
with no per-entity forward fill of its own: when the length of the trading
span from the minimum to the maximum observed date equals the number of
distinct observed dates, the column holds the bare placed values and cells
without a record stay unfilled in the returned panel; only in the other case
is the column reindexed onto the span, forward filled, then backward filled,
so that each cell takes the last placed value at or before it, each cell
before the first placed value takes that first placed value, and a column
with no placed value at all stays missing. -/
theorem adj_fill_amended (cal : Int → Int → List Int) (symbols : List String) (start en : Int)
    (fetchAdj : Int → Int → List AdjRow × String) (s : String) (hs : s ∈ sortS symbols) :
    ((adjSpan cal fetchAdj start en).length
        = (uniqSortI (adjObserved fetchAdj start en)).length →
      (get_adj_factor_daily cal symbols start en fetchAdj false).colAt s
        = (uniqSortI (adjObserved fetchAdj start en)).map
            (placedAdj (get_adj_factor_raw fetchAdj start en) s)) ∧
    (¬ (adjSpan cal fetchAdj start en).length
        = (uniqSortI (adjObserved fetchAdj start en)).length →
      (∀ i j : Nat, i < (adjSpan cal fetchAdj start en).length → j ≤ i →
        placedAdj (get_adj_factor_raw fetchAdj start en) s
            ((adjSpan cal fetchAdj start en).getD j 0) ≠ PVal.nan →
        (∀ k, j < k → k ≤ i →
          placedAdj (get_adj_factor_raw fetchAdj start en) s
            ((adjSpan cal fetchAdj start en).getD k 0) = PVal.nan) →
        ((get_adj_factor_daily cal symbols start en fetchAdj false).colAt s).get? i
          = some (placedAdj (get_adj_factor_raw fetchAdj start en) s
              ((adjSpan cal fetchAdj start en).getD j 0))) ∧
      (∀ i j : Nat, i < j → j < (adjSpan cal fetchAdj start en).length →
        placedAdj (get_adj_factor_raw fetchAdj start en) s
            ((adjSpan cal fetchAdj start en).getD j 0) ≠ PVal.nan →
        (∀ k, k < j →
          placedAdj (get_adj_factor_raw fetchAdj start en) s
            ((adjSpan cal fetchAdj start en).getD k 0) = PVal.nan) →
        ((get_adj_factor_daily cal symbols start en fetchAdj false).colAt s).get? i
          = some (placedAdj (get_adj_factor_raw fetchAdj start en) s
              ((adjSpan cal fetchAdj start en).getD j 0))) ∧
      (∀ i : Nat, i < (adjSpan cal fetchAdj start en).length →
        (∀ k, k < (adjSpan cal fetchAdj start en).length →
          placedAdj (get_adj_factor_raw fetchAdj start en) s
            ((adjSpan cal fetchAdj start en).getD k 0) = PVal.nan) →
        ((get_adj_factor_daily cal symbols start en fetchAdj false).colAt s).get? i
          = some PVal.nan)) := by
  have hcol := adjFilled_colAt cal symbols (get_adj_factor_raw fetchAdj start en) s hs
  rw [adj_daily_false cal symbols start en fetchAdj]
  constructor
  · intro hlen
    rw [hcol]
    rw [if_pos (by exact hlen)]
    rfl
  · intro hlen
    have hcol2 : (adjFilled cal symbols (get_adj_factor_raw fetchAdj start en)).colAt s
        = bfillList PVal.nan (ffillList PVal.nan
            ((adjSpan cal fetchAdj start en).map
              (placedAdj (get_adj_factor_raw fetchAdj start en) s))) := by
      rw [hcol]
      rw [if_neg (by exact hlen)]
      rfl
    have hxlen : ((adjSpan cal fetchAdj start en).map
        (placedAdj (get_adj_factor_raw fetchAdj start en) s)).length
        = (adjSpan cal fetchAdj start en).length := List.length_map _ _
    have hget : ∀ k : Nat, k < (adjSpan cal fetchAdj start en).length →
        ((adjSpan cal fetchAdj start en).map
          (placedAdj (get_adj_factor_raw fetchAdj start en) s)).getD k PVal.nan
        = placedAdj (get_adj_factor_raw fetchAdj start en) s
            ((adjSpan cal fetchAdj start en).getD k 0) := by
      intro k hk
      exact getD_map_apply _ _ k PVal.nan 0 hk
    refine ⟨?_, ?_, ?_⟩
    · intro i j hi hj hne hafter
      rw [hcol2]
      rw [fb_get_last PVal.nan _ i j (by rw [hxlen]; exact hi) hj
        (by rw [hget j (by omega)]; exact hne)
        (fun k h1 h2 => by rw [hget k (by omega)]; exact hafter k h1 h2)]
      rw [hget j (by omega)]
    · intro i j hij hj hne hbefore
      rw [hcol2]
      rw [fb_get_first PVal.nan _ i j hij (by rw [hxlen]; exact hj)
        (by rw [hget j hj]; exact hne)
        (fun k hk => by rw [hget k (by omega)]; exact hbefore k hk)]
      rw [hget j hj]
    · intro i hi hall
      rw [hcol2]
      exact fb_get_all_na PVal.nan _ i (by rw [hxlen]; exact hi)
        (fun k hk => by
          rw [hxlen] at hk
          rw [hget k hk]
          exact hall k hk)

/-- Witness for C5 amended: with symbol B first observed on date 3 of the span
1, 2, 3, the leading cell at date 1 equals the first placed value 3.0. -/
theorem adj_fill_amended_witness :
    ((get_adj_factor_daily calUnit ["A", "B"] 1 3
        (fun _ _ => ([⟨"A", 1, 1⟩, ⟨"A", 3, 2⟩, ⟨"B", 3, 3⟩], "0,")) false).colAt "B").get? 0
      = some (PVal.val 3) := by
  have h := adj_fill_amended calUnit ["A", "B"] 1 3
      (fun _ _ => ([⟨"A", 1, 1⟩, ⟨"A", 3, 2⟩, ⟨"B", 3, 3⟩], "0,")) "B" (by decide)
  have h2 := (h.2 (by decide)).2.1 0 2 (by decide) (by decide) (by decide)
      (by intro k hk; interval_cases k <;> decide)
  exact h2.trans (by decide)

theorem sorted_headD_le (l : List Int) (x d : Int) (hs : List.Sorted (· ≤ ·) l)
    (hd : d ∈ l) : l.headD x ≤ d := by
  cases l with
  | nil => simp at hd
  | cons a t =>
    rcases List.mem_cons.mp hd with h | h
    · rw [h]
      exact le_refl a
    · exact (List.sorted_cons.mp hs).1 d h

theorem sorted_le_getLastD : ∀ (l : List Int) (x : Int), List.Sorted (· ≤ ·) l →
    ∀ d ∈ l, d ≤ l.getLastD x := by
  intro l
  induction l with
  | nil => intro x _ d hd; simp at hd
  | cons a t ih =>
    intro x hs d hd
    rw [List.getLastD_cons x a t]
    rcases List.mem_cons.mp hd with h | h
    · subst h
      cases t with
      | nil => simp [List.getLastD]
      | cons b u =>
        have hab : d ≤ b := (List.sorted_cons.mp hs).1 b (by simp)
        exact le_trans hab (ih d (List.sorted_cons.mp hs).2 b (by simp))
    · exact ih a (List.sorted_cons.mp hs).2 d h

theorem truncF_eq_self {α : Type} (lo hi : Int) (f : Frame α)
    (hrows : ∀ d ∈ f.rows, lo ≤ d ∧ d ≤ hi)
    (hlen : ∀ col ∈ f.data, col.length = f.rows.length) :
    truncF lo hi f = f := by
  cases f with
  | mk rows cols data =>
    unfold truncF
    simp only at hrows hlen ⊢
    congr 1
    · apply List.filter_eq_self.mpr
      intro a ha
      simpa using hrows a ha
    · have hmap : ∀ col ∈ data,
          ((rows.zip col).filter (fun p => decide (lo ≤ p.1 ∧ p.1 ≤ hi))).map Prod.snd
            = col := by
        intro col hcol
        have hfil : (rows.zip col).filter (fun p => decide (lo ≤ p.1 ∧ p.1 ≤ hi))
            = rows.zip col := by
          apply List.filter_eq_self.mpr
          intro pr hpr
          have hp1 : pr.1 ∈ rows := (List.mem_zip hpr).1
          simpa using hrows pr.1 hp1
        rw [hfil]
        exact List.map_snd_zip rows col (le_of_eq (hlen col hcol))
      calc data.map (fun col =>
            ((rows.zip col).filter (fun p => decide (lo ≤ p.1 ∧ p.1 ≤ hi))).map Prod.snd)
          = data.map id := map_congr_on data _ id hmap
        _ = data := List.map_id data

/-- Value of the merged and zero-filled snapshot frame of
get_index_weights_daily at snapshot date td and symbol s: the fetched weight,
or 0.0 when the symbol is absent from that snapshot. -/
def wMerge (fetch : Int → List (String × ℚ)) (td : Int) (s : String) : ℚ :=
  (((fetch td).lookup s).getD 0)

/-- Value placed on the trading axis before the forward fill of
get_index_weights_daily: the merged snapshot value at snapshot dates, missing
elsewhere. -/
def wPlaced (tds : List Int) (fetch : Int → List (String × ℚ)) (s : String) (d : Int) : PVal :=
  if d ∈ tds then PVal.val (wMerge fetch d s) else PVal.nan

theorem weights_daily_untruncated (cal : Int → Int → List Int) (start en : Int)
    (tds : List Int) (fetch : Int → List (String × ℚ)) (msgs : Int → String)
    (hsor : List.Sorted (· ≤ ·) (cal start en)) :
    get_index_weights_daily cal start en tds fetch msgs
      = Frame.mk (cal start en)
          (uniqSortS (tds.flatMap (fun td => (fetch td).map Prod.fst)))
          ((uniqSortS (tds.flatMap (fun td => (fetch td).map Prod.fst))).map
            (fun s => ffillList PVal.nan
              ((cal start en).map (wPlaced tds fetch s)))) := by
  simp only [get_index_weights_daily]
  have heq : (fun s => ffillList PVal.nan ((cal start en).map (fun d =>
      if d ∈ tds then PVal.val (((fetch d).lookup s).getD 0) else PVal.nan)))
      = (fun s => ffillList PVal.nan ((cal start en).map (wPlaced tds fetch s))) := rfl
  rw [heq]
  apply truncF_eq_self
  · intro d hd
    exact ⟨sorted_headD_le (cal start en) start d hsor hd,
           sorted_le_getLastD (cal start en) en hsor d hd⟩
  · intro col hcol
    simp only at hcol ⊢
    obtain ⟨s, hsm, hcol⟩ := List.mem_map.mp hcol
    rw [← hcol, ffillList_length, List.length_map]

/-- C6. In get_index_weights_daily, a universe symbol absent from a periodic
snapshot gets the explicit weight 0.0 at that snapshot date; each cell holds
the merged value of the latest snapshot date at or before it (snapshot values
propagate forward until superseded); when the first trading date is a snapshot
date every cell of the returned panel is a filled numeric weight; and the
returned panel is the filled panel truncated to the span of the trading axis,
every returned row lying inside it. -/
theorem weights_daily_fill (cal : Int → Int → List Int) (start en : Int)
    (tds : List Int) (fetch : Int → List (String × ℚ)) (msgs : Int → String)
    (hsor : List.Sorted (· ≤ ·) (cal start en)) :
    (get_index_weights_daily cal start en tds fetch msgs).rows = cal start en ∧
    (get_index_weights_daily cal start en tds fetch msgs).cols
      = uniqSortS (tds.flatMap (fun td => (fetch td).map Prod.fst)) ∧
    (∀ td ∈ tds, td ∈ cal start en →
      ∀ s ∈ uniqSortS (tds.flatMap (fun td => (fetch td).map Prod.fst)),
      (fetch td).lookup s = none →
      (get_index_weights_daily cal start en tds fetch msgs).cellO td s
        = some (PVal.val 0)) ∧
    (∀ s ∈ uniqSortS (tds.flatMap (fun td => (fetch td).map Prod.fst)),
      ∀ i j : Nat, i < (cal start en).length → j ≤ i → (cal start en).getD j 0 ∈ tds →
      (∀ k, j < k → k ≤ i → (cal start en).getD k 0 ∉ tds) →
      ((get_index_weights_daily cal start en tds fetch msgs).colAt s).get? i
        = some (PVal.val (wMerge fetch ((cal start en).getD j 0) s))) ∧
    ((cal start en).headD start ∈ tds →
      ∀ s ∈ uniqSortS (tds.flatMap (fun td => (fetch td).map Prod.fst)),
      ∀ i : Nat, i < (cal start en).length →
      ∃ w : ℚ, ((get_index_weights_daily cal start en tds fetch msgs).colAt s).get? i
        = some (PVal.val w)) ∧
    (∀ d ∈ (get_index_weights_daily cal start en tds fetch msgs).rows,
      (cal start en).headD start ≤ d ∧ d ≤ (cal start en).getLastD en) := by
  have huntr := weights_daily_untruncated cal start en tds fetch msgs hsor
  have hcolAt : ∀ s ∈ uniqSortS (tds.flatMap (fun td => (fetch td).map Prod.fst)),
      (get_index_weights_daily cal start en tds fetch msgs).colAt s
        = ffillList PVal.nan ((cal start en).map (wPlaced tds fetch s)) := by
    intro s hsm
    rw [huntr]
    exact colAt_tabulate (fun s => ffillList PVal.nan
      ((cal start en).map (wPlaced tds fetch s))) _ _ s hsm
  have hgetD : ∀ (s : String) (k : Nat), k < (cal start en).length →
      ((cal start en).map (wPlaced tds fetch s)).getD k PVal.nan
        = wPlaced tds fetch s ((cal start en).getD k 0) := by
    intro s k hk
    exact getD_map_apply _ _ k PVal.nan 0 hk
  have hmaplen : ∀ s : String,
      ((cal start en).map (wPlaced tds fetch s)).length = (cal start en).length :=
    fun s => List.length_map _ _
  have hprop : ∀ s ∈ uniqSortS (tds.flatMap (fun td => (fetch td).map Prod.fst)),
      ∀ i j : Nat, i < (cal start en).length → j ≤ i → (cal start en).getD j 0 ∈ tds →
      (∀ k, j < k → k ≤ i → (cal start en).getD k 0 ∉ tds) →
      ((get_index_weights_daily cal start en tds fetch msgs).colAt s).get? i
        = some (PVal.val (wMerge fetch ((cal start en).getD j 0) s)) := by
    intro s hsm i j hi hj hjtd hafter
    rw [hcolAt s hsm]
    rw [ffill_get_last PVal.nan _ i j (by rw [hmaplen]; exact hi) hj
      (by rw [hgetD s j (by omega)]; unfold wPlaced; rw [if_pos hjtd]; intro hc; cases hc)
      (fun k h1 h2 => by
        rw [hgetD s k (by omega)]
        unfold wPlaced
        rw [if_neg (hafter k h1 h2)])]
    rw [hgetD s j (by omega)]
    unfold wPlaced
    rw [if_pos hjtd]
  refine ⟨by rw [huntr], by rw [huntr], ?_, hprop, ?_, ?_⟩
  · intro td htd htdcal s hsm hlook
    have hidx : (cal start en).get? ((cal start en).indexOf td) = some td :=
      getq_indexOf _ td htdcal
    have hlt : (cal start en).indexOf td < (cal start en).length :=
      List.indexOf_lt_length.mpr htdcal
    have hgd : (cal start en).getD ((cal start en).indexOf td) 0 = td :=
      getD_eq_of_get? _ _ 0 td hidx
    have hcell := hprop s hsm ((cal start en).indexOf td) ((cal start en).indexOf td)
      hlt le_rfl (by rw [hgd]; exact htd) (fun k h1 h2 => absurd h1 (by omega))
    unfold Frame.cellO
    rw [huntr] at hcell ⊢
    simp only at hcell ⊢
    rw [hcell]
    rw [hgd]
    unfold wMerge
    rw [hlook]
    rfl
  · intro h0 s hsm i hi
    have hne : cal start en ≠ [] := by
      intro hemp
      rw [hemp] at hi
      simp at hi
    have hp0 : (cal start en).getD 0 0 ∈ tds := by
      cases hcase : cal start en with
      | nil => exact absurd hcase hne
      | cons a t =>
        rw [hcase] at h0
        simpa using h0
    have hjdef := Nat.findGreatest_spec (P := fun j => (cal start en).getD j 0 ∈ tds)
      (Nat.zero_le i) hp0
    refine ⟨wMerge fetch ((cal start en).getD
      (Nat.findGreatest (fun j => (cal start en).getD j 0 ∈ tds) i) 0) s, ?_⟩
    exact hprop s hsm i (Nat.findGreatest (fun j => (cal start en).getD j 0 ∈ tds) i)
      hi (Nat.findGreatest_le i) hjdef
      (fun k h1 h2 => Nat.findGreatest_is_greatest h1 h2)
  · intro d hd
    rw [huntr] at hd
    simp only at hd
    exact ⟨sorted_headD_le (cal start en) start d hsor hd,
           sorted_le_getLastD (cal start en) en hsor d hd⟩

/-- Witness for C6: snapshots at dates 1 and 3 on the axis 1, 2, 3; symbol B
is absent from the snapshot at 3 and gets weight 0.0 there, while the cell at
date 2 carries the weight 2.0 forward from the snapshot at 1. -/
theorem weights_daily_fill_witness :
    (get_index_weights_daily calUnit 1 3 [1, 3]
        (fun td => if td = 1 then [("A", 1), ("B", 2)] else [("A", 3)])
        (fun _ => "0,")).cellO 3 "B" = some (PVal.val 0) ∧
    ((get_index_weights_daily calUnit 1 3 [1, 3]
        (fun td => if td = 1 then [("A", 1), ("B", 2)] else [("A", 3)])
        (fun _ => "0,")).colAt "B").get? 1 = some (PVal.val 2) := by
  have h := weights_daily_fill calUnit 1 3 [1, 3]
      (fun td => if td = 1 then [("A", 1), ("B", 2)] else [("A", 3)])
      (fun _ => "0,") (by decide)
  constructor
  · exact h.2.2.1 3 (by decide) (by decide) "B" (by decide) (by decide)
  · have h2 := h.2.2.2.1 "B" (by decide) 1 0 (by decide) (by decide) (by decide)
      (by intro k h1 h2; interval_cases k <;> decide)
    exact h2.trans (by decide)

/-- Two-point trading calendar used by concrete inputs whose axis skips the
interior dates: the range ends only. -/
def calPair : Int → Int → List Int := fun a b => [a, b]

theorem alignCell_some (events : List (Int × String)) (d : Int) (c : String)
    (h : alignCell events d = some c) : ∃ e ∈ events, e.2 = c := by
  unfold alignCell at h
  suffices haux : ∀ acc : Option String,
      events.foldl (fun acc e => if e.1 ≤ d then some e.2 else acc) acc = some c →
      acc = some c ∨ ∃ e ∈ events, e.2 = c by
    rcases haux none h with h1 | h2
    · cases h1
    · exact h2
  clear h
  intro acc
  induction events generalizing acc with
  | nil => intro h2; left; exact h2
  | cons e es ih =>
    intro h2
    rw [List.foldl_cons] at h2
    rcases ih (if e.1 ≤ d then some e.2 else acc) h2 with h3 | h3
    · by_cases hle : e.1 ≤ d
      · rw [if_pos hle] at h3
        right
        exact ⟨e, by simp, Option.some.inj h3⟩
      · rw [if_neg hle] at h3
        left
        exact h3
    · right
      obtain ⟨e2, he2, hc⟩ := h3
      exact ⟨e2, List.mem_cons_of_mem e he2, hc⟩

theorem evsOf_mem (rows : List IndRow) (s : String) (e : Int × String)
    (he : e ∈ evsOf rows s) : ∃ r ∈ rows, r.symbol = s ∧ r.code = e.2 := by
  unfold evsOf at he
  obtain ⟨r, hr, hre⟩ := List.mem_map.mp he
  have hr2 : r ∈ rows.filter (fun r => r.symbol == s) :=
    (List.perm_insertionSort _ _).subset hr
  have hrf := List.mem_filter.mp hr2
  refine ⟨r, hrf.1, by simpa using hrf.2, ?_⟩
  rw [← hre]

theorem industry_colAt (cal : Int → Int → List Int) (start en : Int)
    (symbols : List String) (fetched : List IndRow × String) (s : String)
    (hs : s ∈ sortS symbols) :
    (get_industry_daily cal start en symbols fetched).colAt s
      = (bfillList (none : Option String)
          ((cal start en).map (fun d => alignCell (evsOf fetched.1.dedup s) d))).map
          castCell := by
  simp only [get_industry_daily]
  exact colAt_tabulate (fun s => (bfillList (none : Option String)
      ((cal start en).map (fun d => alignCell (evsOf fetched.1.dedup s) d))).map castCell)
    _ _ s hs

/-- C7 amended. In get_industry_daily the rows are the trading axis; once the
announcement-gated alignment has produced its column, every cell at or before
the first gated position is back-filled from the value of that first filled
cell, the classification effective at the first axis date on or after the
entity's first announcement (not always the value of the earliest record);
and every cell of the returned panel is a text value, either the literal nan
or the code of one of the entity's deduplicated records. -/
theorem industry_backfill_and_cast (cal : Int → Int → List Int) (start en : Int)
    (symbols : List String) (fetched : List IndRow × String) (s : String)
    (hs : s ∈ sortS symbols) :
    (get_industry_daily cal start en symbols fetched).rows = cal start en ∧
    (∀ i j : Nat, ∀ v : String, i ≤ j → j < (cal start en).length →
      alignCell (evsOf fetched.1.dedup s) ((cal start en).getD j 0) = some v →
      (∀ k, k < j → alignCell (evsOf fetched.1.dedup s) ((cal start en).getD k 0) = none) →
      ((get_industry_daily cal start en symbols fetched).colAt s).get? i = some v) ∧
    (∀ i : Nat, i < (cal start en).length →
      ∃ t : String,
        ((get_industry_daily cal start en symbols fetched).colAt s).get? i = some t ∧
        (t = "nan" ∨ ∃ r ∈ fetched.1.dedup, r.symbol = s ∧ r.code = t)) := by
  have hcolAt := industry_colAt cal start en symbols fetched s hs
  have hglen : ((cal start en).map
      (fun d => alignCell (evsOf fetched.1.dedup s) d)).length
      = (cal start en).length := List.length_map _ _
  have hggetD : ∀ k : Nat, k < (cal start en).length →
      ((cal start en).map (fun d => alignCell (evsOf fetched.1.dedup s) d)).getD k none
        = alignCell (evsOf fetched.1.dedup s) ((cal start en).getD k 0) := by
    intro k hk
    exact getD_map_apply _ _ k none 0 hk
  refine ⟨rfl, ?_, ?_⟩
  · intro i j v hij hj halign hbefore
    rw [hcolAt, getq_map]
    have hi : i < ((cal start en).map
        (fun d => alignCell (evsOf fetched.1.dedup s) d)).length := by
      rw [hglen]
      omega
    rw [bfillList_get? none _ i hi]
    have hsplit : i + (j - i) = j := by omega
    have hfirst : firstNonNA (none : Option String)
        (((cal start en).map (fun d => alignCell (evsOf fetched.1.dedup s) d)).drop i)
        = some v := by
      refine (firstNonNA_first none _ (j - i) ?_ ?_ ?_).trans ?_
      · rw [List.length_drop, hglen]
        omega
      · rw [getD_drop_add _ i (j - i) none, hsplit, hggetD j hj, halign]
        intro hc
        cases hc
      · intro k hk
        rw [getD_drop_add _ i k none, hggetD (i + k) (by omega)]
        exact hbefore (i + k) (by omega)
      · rw [getD_drop_add _ i (j - i) none, hsplit, hggetD j hj, halign]
    rw [hfirst]
    rfl
  · intro i hi
    rw [hcolAt, getq_map]
    have hi2 : i < ((cal start en).map
        (fun d => alignCell (evsOf fetched.1.dedup s) d)).length := by
      rw [hglen]
      exact hi
    rw [bfillList_get? none _ i hi2]
    refine ⟨castCell (firstNonNA none
      (((cal start en).map (fun d => alignCell (evsOf fetched.1.dedup s) d)).drop i)), rfl, ?_⟩
    rcases firstNonNA_mem (none : Option String)
        (((cal start en).map (fun d => alignCell (evsOf fetched.1.dedup s) d)).drop i)
      with hna | hmem
    · left
      rw [hna]
      rfl
    · have hming : firstNonNA none
          (((cal start en).map (fun d => alignCell (evsOf fetched.1.dedup s) d)).drop i)
          ∈ (cal start en).map (fun d => alignCell (evsOf fetched.1.dedup s) d) :=
        List.mem_of_mem_drop hmem
      obtain ⟨d, hd, hdc⟩ := List.mem_map.mp hming
      cases hval : firstNonNA none
          (((cal start en).map (fun d => alignCell (evsOf fetched.1.dedup s) d)).drop i) with
      | none =>
        left
        rfl
      | some c =>
        right
        rw [hval] at hdc
        obtain ⟨e, he, hec⟩ := alignCell_some _ d c hdc
        obtain ⟨r, hrmem, hrs, hrc⟩ := evsOf_mem fetched.1.dedup s e he
        refine ⟨r, hrmem, hrs, ?_⟩
        rw [hrc, hec]
        rfl

/-- Witness for C7 amended: one record announced on date 5, axis 3 then 10:
the leading cell at 3 is back-filled to the first gated value X. -/
theorem industry_backfill_and_cast_witness :
    ((get_industry_daily calPair 3 10 ["A"]
        ([⟨"A", 5, "X"⟩], "0,")).colAt "A").get? 0 = some "X" := by
  have h := industry_backfill_and_cast calPair 3 10 ["A"] ([⟨"A", 5, "X"⟩], "0,") "A"
      (by decide)
  exact h.2.1 0 1 "X" (by omega) (by decide) (by decide)
      (by intro k hk; interval_cases k; decide)

/-- C7 counterexample: records announced on dates 5 (code X) and 7 (code Y)
with the axis 3, 10: the leading cell at 3 is back-filled with Y, the value
effective at the first covered date 10, not the entity's earliest known
classification value X. -/
theorem industry_backfill_cex :
    (get_industry_daily calPair 3 10 ["A"]
        ([⟨"A", 5, "X"⟩, ⟨"A", 7, "Y"⟩], "0,")).cellO 3 "A" = some "Y" ∧
    ("Y" : String) ≠ "X" ∧
    (evsOf ([⟨"A", 5, "X"⟩, ⟨"A", 7, "Y"⟩] : List IndRow) "A").headD (0, "") = (5, "X") :=
  ⟨by decide, by decide, by decide⟩

/-- C10. A requested symbol with no fetched classification record still
appears as a column of get_industry_daily, and every cell of that column is
the literal text nan produced by the cast of an unfilled cell. -/
theorem industry_missing_symbol_nan (cal : Int → Int → List Int) (start en : Int)
    (symbols : List String) (fetched : List IndRow × String) (s : String)
    (hs : s ∈ symbols) (hnone : ∀ r ∈ fetched.1, r.symbol ≠ s) :
    s ∈ (get_industry_daily cal start en symbols fetched).cols ∧
    ∀ i : Nat, i < (cal start en).length →
      ((get_industry_daily cal start en symbols fetched).colAt s).get? i = some "nan" := by
  have hs2 : s ∈ sortS symbols := (sortS_mem symbols s).mpr hs
  have hevs : evsOf fetched.1.dedup s = [] := by
    unfold evsOf
    have hfil : fetched.1.dedup.filter (fun r => r.symbol == s) = [] := by
      apply List.filter_eq_nil_iff.mpr
      intro r hr
      simpa using hnone r (List.dedup_sublist fetched.1 |>.subset hr)
    rw [hfil]
    rfl
  have hcolAt := industry_colAt cal start en symbols fetched s hs2
  refine ⟨hs2, ?_⟩
  intro i hi
  rw [hcolAt, getq_map]
  have hi2 : i < ((cal start en).map
      (fun d => alignCell (evsOf fetched.1.dedup s) d)).length := by
    rw [List.length_map]
    exact hi
  rw [bfillList_get? none _ i hi2]
  have hfn : firstNonNA (none : Option String)
      (((cal start en).map (fun d => alignCell (evsOf fetched.1.dedup s) d)).drop i)
      = none := by
    apply firstNonNA_all
    intro y hy
    have hym : y ∈ (cal start en).map (fun d => alignCell (evsOf fetched.1.dedup s) d) :=
      List.mem_of_mem_drop hy
    obtain ⟨d, hd, hdy⟩ := List.mem_map.mp hym
    rw [← hdy, hevs]
    rfl
  rw [hfn]
  rfl

/-- Witness for C10: symbols A and B requested, rows fetched only for A: the
column B exists and its first cell is the text nan. -/
theorem industry_missing_symbol_nan_witness :
    "B" ∈ (get_industry_daily calUnit 1 2 ["A", "B"] ([⟨"A", 1, "X"⟩], "0,")).cols ∧
    ((get_industry_daily calUnit 1 2 ["A", "B"] ([⟨"A", 1, "X"⟩], "0,")).colAt "B").get? 0
      = some "nan" := by
  have h := industry_missing_symbol_nan calUnit 1 2 ["A", "B"] ([⟨"A", 1, "X"⟩], "0,") "B"
      (by decide) (by decide)
  exact ⟨h.1, h.2 0 (by decide)⟩

end JaqsData
